import Mathlib

/-!
# Verification of the biotech-digest pipeline

A shallow embedding of `scripts/biotech_digest.py`: the fingerprint hash
(`hash_item`, real SHA-256 over the UTF-8 bytes of title and link), the
summary cleaner (`summarize`), the keyword gate (`matches_keywords`), the
per-entry dedup-and-collect step of `main`, the end-of-run ledger compaction,
and the renderer (`render_digest`).

External collaborators (feedparser, `html.unescape`, compiled regex keyword
patterns) are modelled as parameters: a feed is its list of raw entries, an
HTML-entity decoder is an arbitrary `String → String`, and a compiled pattern
is its search function `String → Bool`.

Python strings are modelled as Lean `String`s viewed as their `List Char` of
code points, which matches Python's per-code-point `len`, slicing and
comparison semantics.
-/

/-- UTF-8 encoding of a single code point, as `str.encode` produces it. -/
def utf8Bytes (n : Nat) : List Nat :=
  if n < 0x80 then [n]
  else if n < 0x800 then [0xC0 ||| (n >>> 6), 0x80 ||| (n &&& 0x3F)]
  else if n < 0x10000 then
    [0xE0 ||| (n >>> 12), 0x80 ||| ((n >>> 6) &&& 0x3F), 0x80 ||| (n &&& 0x3F)]
  else
    [0xF0 ||| (n >>> 18), 0x80 ||| ((n >>> 12) &&& 0x3F),
     0x80 ||| ((n >>> 6) &&& 0x3F), 0x80 ||| (n &&& 0x3F)]

/-- The UTF-8 bytes of a string, as Python's `s.encode()` returns them. -/
def strBytes (s : String) : List Nat :=
  (s.data.map (fun c => utf8Bytes c.toNat)).flatten

namespace Sha256

/-- Reduce modulo 2^32: all SHA-256 word arithmetic is 32-bit. -/
def w32 (n : Nat) : Nat := n % 4294967296

def add32 (a b : Nat) : Nat := w32 (a + b)

/-- Rotate a 32-bit word right by `k` bit positions. -/
def rotr (k n : Nat) : Nat := w32 ((n >>> k) ||| (n <<< (32 - k)))

def bigSigma0 (x : Nat) : Nat := (rotr 2 x) ^^^ (rotr 13 x) ^^^ (rotr 22 x)

def bigSigma1 (x : Nat) : Nat := (rotr 6 x) ^^^ (rotr 11 x) ^^^ (rotr 25 x)

def smallSigma0 (x : Nat) : Nat := (rotr 7 x) ^^^ (rotr 18 x) ^^^ (x >>> 3)

def smallSigma1 (x : Nat) : Nat := (rotr 17 x) ^^^ (rotr 19 x) ^^^ (x >>> 10)

/-- The 64 SHA-256 round constants of FIPS 180-4, written in decimal. -/
def K : List Nat :=
  [1116352408, 1899447441, 3049323471, 3921009573, 961987163, 1508970993,
   2453635748, 2870763221, 3624381080, 310598401, 607225278, 1426881987,
   1925078388, 2162078206, 2614888103, 3248222580, 3835390401, 4022224774,
   264347078, 604807628, 770255983, 1249150122, 1555081692, 1996064986,
   2554220882, 2821834349, 2952996808, 3210313671, 3336571891, 3584528711,
   113926993, 338241895, 666307205, 773529912, 1294757372, 1396182291,
   1695183700, 1986661051, 2177026350, 2456956037, 2730485921, 2820302411,
   3259730800, 3345764771, 3516065817, 3600352804, 4094571909, 275423344,
   430227734, 506948616, 659060556, 883997877, 958139571, 1322822218,
   1537002063, 1747873779, 1955562222, 2024104815, 2227730452, 2361852424,
   2428436474, 2756734187, 3204031479, 3329325298]

/-- The eight initial hash words of FIPS 180-4, written in decimal. -/
def H0 : List Nat :=
  [1779033703, 3144134277, 1013904242, 2773480762,
   1359893119, 2600822924, 528734635, 1541459225]

/-- Big-endian 8-byte encoding of a natural number. -/
def be8 (n : Nat) : List Nat :=
  (List.range 8).map (fun i => (n >>> (8 * (7 - i))) % 256)

/-- SHA-256 padding: a 0x80 byte, zeros up to 56 mod 64, then the bit length. -/
def pad (msg : List Nat) : List Nat :=
  let len := msg.length
  let zeros := (120 - ((len + 1) % 64)) % 64
  msg ++ [0x80] ++ List.replicate zeros 0 ++ be8 (len * 8)

/-- Big-endian 32-bit words from a byte stream. -/
def bytesToWords : List Nat → List Nat
  | b0 :: b1 :: b2 :: b3 :: rest =>
      (b0 <<< 24 ||| b1 <<< 16 ||| b2 <<< 8 ||| b3) :: bytesToWords rest
  | _ => []

def chunksGo : Nat → List Nat → List (List Nat)
  | 0, _ => []
  | n + 1, bs => bs.take 64 :: chunksGo n (bs.drop 64)

/-- Split a padded byte list into its 64-byte blocks. -/
def chunks64 (bs : List Nat) : List (List Nat) := chunksGo (bs.length / 64) bs

/-- Extend the message schedule, kept in reverse, by `k` more words. -/
def extendSched (k : Nat) (rev : List Nat) : List Nat :=
  match k with
  | 0 => rev
  | k + 1 =>
      let next := w32 (smallSigma1 (rev.getD 1 0) + rev.getD 6 0 +
                       smallSigma0 (rev.getD 14 0) + rev.getD 15 0)
      extendSched k (next :: rev)

/-- The 64-word message schedule of one block. -/
def schedule (ws : List Nat) : List Nat :=
  (extendSched 48 ws.reverse).reverse

/-- One round of the compression function on the 8-word working state. -/
def compressStep (st : List Nat) (kw : Nat × Nat) : List Nat :=
  match st with
  | [a, b, c, d, e, f, g, h] =>
      let ch := (e &&& f) ^^^ ((4294967295 ^^^ e) &&& g)
      let maj := (a &&& b) ^^^ (a &&& c) ^^^ (b &&& c)
      let t1 := w32 (h + bigSigma1 e + ch + kw.1 + kw.2)
      let t2 := w32 (bigSigma0 a + maj)
      [add32 t1 t2, a, b, c, w32 (d + t1), e, f, g]
  | st => st

/-- Compress one 64-byte block into the hash state. -/
def compress (h : List Nat) (block : List Nat) : List Nat :=
  let ws := schedule (bytesToWords block)
  let st := (K.zip ws).foldl compressStep h
  (h.zip st).map (fun p => add32 p.1 p.2)

def hexDigit (n : Nat) : Char :=
  ("0123456789abcdef".data).getD n '0'

def wordHex (w : Nat) : List Char :=
  (List.range 8).map (fun i => hexDigit ((w >>> (4 * (7 - i))) % 16))

/-- SHA-256 of a byte list, as the usual lowercase hex string
(Python's `hashlib.sha256(...).hexdigest()`). -/
def sha256Hex (msg : List Nat) : String :=
  let hs := (chunks64 (pad msg)).foldl compress H0
  ⟨(hs.map wordHex).flatten⟩

end Sha256

/-- The fingerprint `hash_item(title, link)`: SHA-256 over the UTF-8 bytes of the title
followed by the bytes of the link (two successive `h.update` calls hash the
concatenation), returned as its hex digest.  The `or ""` defaults are the
identity here: the pipeline always passes the already-defaulted strings
produced by its `getattr(e, field, "")` extractions. -/
def hash_item (title link : String) : String :=
  Sha256.sha256Hex (strBytes title ++ strBytes link)

/-- Python's default whitespace set for `str.strip` (Unicode whitespace). -/
def isPySpace (c : Char) : Bool :=
  ([9, 10, 11, 12, 13, 28, 29, 30, 31, 32, 0x85, 0xA0, 0x1680,
    0x2000, 0x2001, 0x2002, 0x2003, 0x2004, 0x2005, 0x2006, 0x2007,
    0x2008, 0x2009, 0x200A, 0x2028, 0x2029, 0x202F, 0x205F, 0x3000] : List Nat).contains c.toNat

/-- Python `str.rstrip()` on a list of code points. -/
def pyRstripL (cs : List Char) : List Char :=
  (cs.reverse.dropWhile isPySpace).reverse

/-- Python `str.strip()` on a list of code points. -/
def pyStripL (cs : List Char) : List Char :=
  pyRstripL (cs.dropWhile isPySpace)

def pyRstrip (s : String) : String := ⟨pyRstripL s.data⟩

def pyStrip (s : String) : String := ⟨pyStripL s.data⟩

/-- Python slicing `s[:n]`. -/
def pyTake (n : Nat) (s : String) : String := ⟨s.data.take n⟩

/-- One-pass automaton for `re.sub("<[^<]+?>", "", text)`.  The first
argument is `none` outside a candidate tag, or `some innerRev` (the inner
characters seen so far, reversed) after an unclosed `<`.  A match is a `<`,
one or more characters none of which is `<` (non-greedy: the shortest such
run), then `>`; matches are deleted.  A `<` aborts the current candidate
(its characters are emitted — no match can restart inside them, since a
match must begin with `<`) and starts a new one. -/
def stripTagsGo : Option (List Char) → List Char → List Char
  | none, [] => []
  | none, c :: rest =>
      if c = '<' then stripTagsGo (some []) rest else c :: stripTagsGo none rest
  | some inner, [] => '<' :: inner.reverse
  | some inner, c :: rest =>
      if c = '<' then ('<' :: inner.reverse) ++ stripTagsGo (some []) rest
      else if c = '>' then
        if inner.isEmpty then stripTagsGo (some ['>']) rest
        else stripTagsGo none rest
      else stripTagsGo (some (c :: inner)) rest

/-- The tag-stripping pass `re.sub("<[^<]+?>", "", text)` of `summarize`. -/
def stripTags (s : String) : String := ⟨stripTagsGo none s.data⟩

/-- The text produced by `unescape(re.sub("<[^<]+?>", "", text)).strip()`,
for a given HTML-entity decoder `unesc` (the `html.unescape` collaborator). -/
def cleanText (unesc : String → String) (text : String) : String :=
  pyStrip (unesc (stripTags text))

/-- The cleaner `summarize(text, max_chars)`: empty in, empty out; otherwise strip tags,
decode entities, trim, and if still over budget truncate to `max_chars - 1`
code points, right-strip, and append one ellipsis character. -/
def summarize (unesc : String → String) (text : String) (maxChars : Nat := 280) : String :=
  if text = "" then ""
  else if (cleanText unesc text).length ≤ maxChars then cleanText unesc text
  else pyRstrip (pyTake (maxChars - 1) (cleanText unesc text)) ++ "…"

/-- The gate `matches_keywords(title, summary, kw_regexes)`: any compiled pattern
finds a match in title and summary joined by a newline.  A compiled
case-insensitive pattern is modelled by its search function. -/
def matches_keywords (title summary : String) (kw : List (String → Bool)) : Bool :=
  kw.any (fun k => k (title ++ "\n" ++ summary))

/-- A raw feed entry as the feedparser collaborator presents it: each field
is optionally present (`getattr(e, field, "")` supplies `""` when absent). -/
structure RawEntry where
  title : Option String
  link : Option String
  summary : Option String
  description : Option String
  published : Option String
  updated : Option String
deriving DecidableEq

/-- Python's `a or b` on strings: `b` when `a` is empty. -/
def pyOr (a b : String) : String := if a = "" then b else a

/-- The extraction `getattr(e, "title", "")`. -/
def rawTitle (e : RawEntry) : String := e.title.getD ""

/-- The extraction `getattr(e, "link", "")`. -/
def rawLink (e : RawEntry) : String := e.link.getD ""

/-- The extraction `getattr(e, "summary", "") or getattr(e, "description", "")`. -/
def rawSummary (e : RawEntry) : String :=
  pyOr (e.summary.getD "") (e.description.getD "")

/-- The extraction `getattr(e, "published", "") or getattr(e, "updated", "")`. -/
def rawPub (e : RawEntry) : String :=
  pyOr (e.published.getD "") (e.updated.getD "")

/-- One collected item, as built in `main`. -/
structure Item where
  source : String
  title : String
  link : String
  summary : String
  published : String
deriving DecidableEq

/-- The mutable state of one run of `main`'s collection loop:
the `collected` list and the ledger's `seen["hashes"]` list. -/
structure RunState where
  collected : List Item
  hashes : List String
deriving DecidableEq

/-- One configured source together with the entries its feed returns
(the feed-fetching collaborator is a black box returning `entries`). -/
structure Feed where
  name : String
  entries : List RawEntry

/-- The persisted ledger `seen`: the `hashes` list and the `max_len` cap. -/
structure Ledger where
  hashes : List String
  maxLen : Nat
deriving DecidableEq

/-- The body of `main`'s inner loop for one raw entry: skip if the
fingerprint is already in the ledger; skip if patterns exist and none
matches; otherwise collect the normalized item and append the fingerprint. -/
def processEntry (unesc : String → String) (kw : List (String → Bool)) (srcName : String)
    (st : RunState) (e : RawEntry) : RunState :=
  let h := hash_item (rawTitle e) (rawLink e)
  if h ∈ st.hashes then st
  else if !kw.isEmpty && !matches_keywords (rawTitle e) (rawSummary e) kw then st
  else
    { collected := st.collected ++
        [{ source := srcName, title := rawTitle e, link := rawLink e,
           summary := summarize unesc (rawSummary e) 320, published := rawPub e }],
      hashes := st.hashes ++ [h] }

/-- The double loop of `main` over sources and their feed entries. -/
def runFeeds (unesc : String → String) (kw : List (String → Bool))
    (feeds : List Feed) (st : RunState) : RunState :=
  feeds.foldl (fun st f => f.entries.foldl (processEntry unesc kw f.name) st) st

/-- Python slicing `l[-k:]` for a nonnegative `k` (note `l[-0:]` is `l`). -/
def pySliceLast (k : Nat) (l : List String) : List String :=
  if k = 0 then l else l.drop (l.length - k)

/-- The end-of-run compaction: `seen["hashes"] = seen["hashes"][-max_len:]`
when the list is over the cap. -/
def compactHashes (maxLen : Nat) (hashes : List String) : List String :=
  if hashes.length > maxLen then pySliceLast maxLen hashes else hashes

/-- One whole run of `main`'s core: collect over all feeds starting from the
persisted ledger, then cap the ledger.  Returns the collected items and the
ledger as it is persisted by `save_seen`. -/
def mainRun (unesc : String → String) (kw : List (String → Bool))
    (feeds : List Feed) (ledger : Ledger) : List Item × Ledger :=
  let st := runFeeds unesc kw feeds { collected := [], hashes := ledger.hashes }
  (st.collected, { hashes := compactHashes ledger.maxLen st.hashes, maxLen := ledger.maxLen })

/-- The update `by_source.setdefault(it["source"], []).append(it)` on an
insertion-ordered association list (Python dicts preserve insertion order). -/
def addItem (gs : List (String × List Item)) (it : Item) : List (String × List Item) :=
  match gs with
  | [] => [(it.source, [it])]
  | (s, arr) :: rest =>
      if s = it.source then (s, arr ++ [it]) :: rest else (s, arr) :: addItem rest it

/-- The `by_source` grouping built by `render_digest`. -/
def bySource (items : List Item) : List (String × List Item) :=
  items.foldl addItem []

/-- Lexicographic (code-point) `≤` on code-point lists — Python's string
comparison as used by `sorted`. -/
def pyStrLeb : List Char → List Char → Bool
  | [], _ => true
  | _ :: _, [] => false
  | a :: as, b :: bs =>
      if a.toNat < b.toNat then true
      else if a.toNat = b.toNat then pyStrLeb as bs
      else false

/-- The comparison `sorted(by_source.items())` sorts by: the source-name
key (keys are distinct, so the tuple comparison never reaches the values). -/
def keyLe (a b : String × List Item) : Prop :=
  pyStrLeb a.1.data b.1.data = true

/-- Insert a group in front of the first group with a `≥` key. -/
def orderedInsertKey (g : String × List Item) :
    List (String × List Item) → List (String × List Item)
  | [] => [g]
  | h :: t => if pyStrLeb g.1.data h.1.data then g :: h :: t else h :: orderedInsertKey g t

/-- Insertion sort by source-name key: the model of `sorted` (Python's sort
is stable, and the keys here are distinct, so any order-correct sort agrees
with it). -/
def sortByKey : List (String × List Item) → List (String × List Item)
  | [] => []
  | g :: t => orderedInsertKey g (sortByKey t)

/-- The sort `sorted(by_source.items())`. -/
def sortedBySource (items : List Item) : List (String × List Item) :=
  sortByKey (bySource items)

/-- The group stored under key `s` in an association list (the first match,
as in a dict whose keys are unique). -/
def groupOf (s : String) : List (String × List Item) → List Item
  | [] => []
  | g :: rest => if g.1 = s then g.2 else groupOf s rest

/-- One breakdown line `f"- {source}: {count} item{'s' if count != 1 else ''}"`. -/
def countLine (source : String) (count : Nat) : String :=
  "- " ++ source ++ ": " ++ toString count ++ " item" ++ (if count != 1 then "s" else "")

/-- One detail entry
`f"- **[{title}]({link})**  \n  _{pub}_  \n  {summary}\n"`, with the
`(untitled)` fallback and the `or ""` defaults. -/
def itemLine (it : Item) : String :=
  "- **[" ++ pyOr it.title "(untitled)" ++ "](" ++ it.link ++ ")**  \n  _"
    ++ it.published ++ "_  \n  " ++ it.summary ++ "\n"

/-- The `lines` list `render_digest` builds in the non-empty case, in order:
title, total-count line, breakdown header, one line per source, a blank
line, then per source a header line and one line per item. -/
def linesOf (dateStr : String) (items : List Item) : List String :=
  ["# Biotech Daily Digest — " ++ dateStr ++ "\n"]
  ++ ["**" ++ toString items.length ++ " items from "
        ++ toString (bySource items).length ++ " sources**\n"]
  ++ ["## Summary by Source\n"]
  ++ (sortedBySource items).map (fun g => countLine g.1 g.2.length)
  ++ [""]
  ++ (sortedBySource items).flatMap
      (fun g => ("\n## " ++ g.1 ++ "\n") :: g.2.map itemLine)

/-- The renderer `render_digest(date_str, items)`. -/
def render_digest (dateStr : String) (items : List Item) : String :=
  if items.isEmpty then
    "# Biotech Daily Digest — " ++ dateStr ++ "\n\n_No matching items today._\n"
  else
    pyStrip (String.intercalate "\n" (linesOf dateStr items)) ++ "\n"

/-- The number of distinct source names among the collected items. -/
def distinctSources (items : List Item) : Nat :=
  (items.map Item.source).toFinset.card

/-- An entry is handled for a given ledger content: its fingerprint is
already recorded, or the (non-empty) pattern gate rejects it.  A handled
entry is skipped by `processEntry`, and after a run every entry of the
processed feeds is handled for the run's final (pre-compaction) ledger. -/
def handledEntry (kw : List (String → Bool)) (hs : List String) (e : RawEntry) : Prop :=
  hash_item (rawTitle e) (rawLink e) ∈ hs ∨
    (kw ≠ [] ∧ matches_keywords (rawTitle e) (rawSummary e) kw = false)

/-- A compiled pattern that matches nothing (a search function returning no
match on any haystack), for concrete instantiations. -/
def noPat : String → Bool := fun _ => false

/-- A raw entry with every optional field absent. -/
def emptyEntry : RawEntry := ⟨none, none, none, none, none, none⟩

/-- A raw entry whose only present field is the title `"a"`. -/
def entryA : RawEntry := ⟨some "a", none, none, none, none, none⟩

/-- A raw entry whose only present field is the title `"b"`. -/
def entryB : RawEntry := ⟨some "b", none, none, none, none, none⟩

/-- A single source whose feed returns the two distinct entries above. -/
def feedAB : List Feed := [⟨"S", [entryA, entryB]⟩]

/-- An empty starting ledger whose capacity is 1. -/
def ledger1 : Ledger := ⟨[], 1⟩

/-- Sample collected items: two sources, `"b-src"` twice and `"a-src"` once,
with `"b-src"` collected first. -/
def sampleItems : List Item :=
  [⟨"b-src", "T1", "L1", "S1", "P1"⟩, ⟨"a-src", "", "", "S2", ""⟩,
   ⟨"b-src", "T3", "", "", ""⟩]

/-! ## Helper lemmas -/

theorem strBytes_append (s t : String) :
    strBytes (s ++ t) = strBytes s ++ strBytes t := by
  simp [strBytes, String.data_append]

theorem string_append_empty (s : String) : s ++ "" = s := by
  cases s with
  | mk data =>
    show String.mk (data ++ []) = String.mk data
    rw [List.append_nil]

theorem string_append_assoc (a b c : String) : (a ++ b) ++ c = a ++ (b ++ c) := by
  cases a with
  | mk x =>
    cases b with
    | mk y =>
      cases c with
      | mk z =>
        show String.mk ((x ++ y) ++ z) = String.mk (x ++ (y ++ z))
        rw [List.append_assoc]

theorem dropWhile_length_le {α : Type} (p : α → Bool) :
    ∀ l : List α, (l.dropWhile p).length ≤ l.length := by
  intro l
  induction l with
  | nil => exact Nat.le_refl _
  | cons c cs ih =>
    rw [List.dropWhile_cons]
    by_cases h : p c
    · simp only [h, if_true]
      exact Nat.le_succ_of_le ih
    · simp [h]

theorem pyRstripL_length_le (cs : List Char) : (pyRstripL cs).length ≤ cs.length := by
  simpa [pyRstripL] using dropWhile_length_le isPySpace cs.reverse

theorem string_mk_length (l : List Char) : (⟨l⟩ : String).length = l.length := rfl

theorem isEmpty_false_iff {α : Type} (l : List α) : l.isEmpty = false ↔ l ≠ [] := by
  cases l <;> simp

theorem compact_spec (cap : Nat) (l : List String) (hcap : 0 < cap) :
    (compactHashes cap l).length ≤ cap ∧
      compactHashes cap l = l.drop (l.length - cap) := by
  have hne : ¬ (cap = 0) := by omega
  unfold compactHashes pySliceLast
  by_cases h : l.length > cap
  · rw [if_pos h, if_neg hne]
    refine ⟨?_, rfl⟩
    rw [List.length_drop]
    omega
  · rw [if_neg h]
    have h0 : l.length - cap = 0 := by omega
    rw [h0, List.drop_zero]
    exact ⟨by omega, rfl⟩

/-! ## C2 — fingerprint stability and injectivity -/

/-- C2 counterexample: `hash_item` hashes the plain concatenation of title
and link, so the two distinct pairs `("ab", "c")` and `("a", "bc")` — which
differ in both fields — receive the same fingerprint, refuting injectivity. -/
theorem C2_fingerprint_collision :
    hash_item "ab" "c" = hash_item "a" "bc" ∧
      ("ab", "c") ≠ (("a", "bc") : String × String) := by
  constructor
  · rfl
  · decide

/-- C2 (amended): `fingerprint(title, link)` is pure and deterministic, and
depends on its inputs only through the byte concatenation `title ++ link`:
any two pairs with equal concatenation — including distinct pairs — receive
equal fingerprints. -/
theorem C2_fingerprint_concat (t₁ l₁ t₂ l₂ : String) (h : t₁ ++ l₁ = t₂ ++ l₂) :
    hash_item t₁ l₁ = hash_item t₁ l₁ ∧ hash_item t₁ l₁ = hash_item t₂ l₂ := by
  refine ⟨rfl, ?_⟩
  unfold hash_item
  rw [← strBytes_append, ← strBytes_append, h]

/-- C2 witness: the amended statement at the concrete colliding pair. -/
theorem C2_fingerprint_concat_witness :
    hash_item "ab" "c" = hash_item "ab" "c" ∧ hash_item "ab" "c" = hash_item "a" "bc" :=
  C2_fingerprint_concat "ab" "c" "a" "bc" (by decide)

/-! ## C3 — capacity bound of compaction -/

/-- C3: for any hash list and positive capacity, compaction leaves at most
`capacity` entries, and the retained entries are exactly the final
(most-recently-inserted) entries in their original relative order: the
result is the suffix obtained by dropping all but the last `capacity`. -/
theorem C3_compact_bound (cap : Nat) (l : List String) (hcap : 0 < cap) :
    (compactHashes cap l).length ≤ cap ∧
      compactHashes cap l = l.drop (l.length - cap) :=
  compact_spec cap l hcap

/-- C3 witness: capacity 3 with insertions A, B, C, D leaves exactly
[B, C, D]. -/
theorem C3_compact_bound_witness :
    (compactHashes 3 ["A", "B", "C", "D"]).length ≤ 3 ∧
      compactHashes 3 ["A", "B", "C", "D"] = ["B", "C", "D"] :=
  ⟨(C3_compact_bound 3 ["A", "B", "C", "D"] (by decide)).1, by decide⟩

/-! ## C4 — filter gate -/

/-- C4: when the pattern list is non-empty and the raw title and summary
match none of the patterns, processing the entry leaves the run state
unchanged: the entry is not collected and its fingerprint is not inserted
into the ledger. -/
theorem C4_filter_gate (unesc : String → String) (kw : List (String → Bool))
    (srcName : String) (st : RunState) (e : RawEntry) (hkw : kw ≠ [])
    (hm : matches_keywords (rawTitle e) (rawSummary e) kw = false) :
    processEntry unesc kw srcName st e = st := by
  have hemp : kw.isEmpty = false := by
    cases kw with
    | nil => exact absurd rfl hkw
    | cons a l => rfl
  unfold processEntry
  by_cases hmem : hash_item (rawTitle e) (rawLink e) ∈ st.hashes
  · simp [hmem]
  · simp [hmem, hemp, hm]

/-- C4 witness: a never-matching pattern set causes a concrete entry to be
skipped with the state untouched. -/
theorem C4_filter_gate_witness :
    processEntry id [noPat] "S" ⟨[], []⟩ emptyEntry = ⟨[], []⟩ :=
  C4_filter_gate id [noPat] "S" ⟨[], []⟩ emptyEntry (by simp) (by rfl)

/-! ## C7 — normalizer totality -/

/-- C7: field extraction is a total function of the raw entry (the
embedding of `getattr` with a default can never raise), and each absent
field independently degrades to the empty string: an absent title or link
yields `""`, and the summary (resp. published) field yields `""` when both
its primary and fallback fields are absent. -/
theorem C7_normalizer_total (e : RawEntry) :
    (e.title = none → rawTitle e = "") ∧
    (e.link = none → rawLink e = "") ∧
    (e.summary = none → e.description = none → rawSummary e = "") ∧
    (e.published = none → e.updated = none → rawPub e = "") := by
  refine ⟨?_, ?_, ?_, ?_⟩
  · intro h; simp [rawTitle, h]
  · intro h; simp [rawLink, h]
  · intro h h'; simp [rawSummary, h, h', pyOr]
  · intro h h'; simp [rawPub, h, h', pyOr]

/-- C7 witness: the all-absent raw entry normalizes to four empty strings. -/
theorem C7_normalizer_total_witness :
    rawTitle emptyEntry = "" ∧ rawLink emptyEntry = "" ∧
      rawSummary emptyEntry = "" ∧ rawPub emptyEntry = "" :=
  ⟨(C7_normalizer_total emptyEntry).1 rfl,
   (C7_normalizer_total emptyEntry).2.1 rfl,
   (C7_normalizer_total emptyEntry).2.2.1 rfl rfl,
   (C7_normalizer_total emptyEntry).2.2.2 rfl rfl⟩

/-! ## C5 — truncation bound -/

/-- C5: for every input summary and any entity decoder that maps the empty
string to itself (as `html.unescape` does), the cleaned-and-truncated output
at the pipeline's 320-character budget has at most 320 code points, and
whenever the cleaned text exceeds the budget the output is exactly the
first 319 code points, right-stripped, with a single ellipsis character
appended — so every truncated output ends in the ellipsis marker. -/
theorem C5_truncation_bound (unesc : String → String) (text : String)
    (hu : unesc "" = "") :
    (summarize unesc text 320).length ≤ 320 ∧
      (320 < (cleanText unesc text).length →
        summarize unesc text 320 = pyRstrip (pyTake 319 (cleanText unesc text)) ++ "…" ∧
        ∃ p, summarize unesc text 320 = p ++ "…") := by
  unfold summarize
  by_cases ht : text = ""
  · subst ht
    have hclean : cleanText unesc "" = "" := by
      unfold cleanText stripTags
      rw [show (⟨stripTagsGo none "".data⟩ : String) = "" from rfl, hu]
      rfl
    rw [if_pos rfl]
    refine ⟨by simp, fun hlen => ?_⟩
    rw [hclean] at hlen
    exact absurd hlen (by simp)
  · rw [if_neg ht]
    by_cases hlen : (cleanText unesc text).length ≤ 320
    · rw [if_pos hlen]
      exact ⟨hlen, fun h => absurd h (by omega)⟩
    · rw [if_neg hlen, show (320 : Nat) - 1 = 319 from rfl]
      have h1 : (pyRstrip (pyTake 319 (cleanText unesc text))).length ≤ 319 := by
        have h2 := pyRstripL_length_le ((cleanText unesc text).data.take 319)
        have h3 : ((cleanText unesc text).data.take 319).length ≤ 319 := by
          simp [List.length_take]
        calc (pyRstrip (pyTake 319 (cleanText unesc text))).length
            = (pyRstripL ((cleanText unesc text).data.take 319)).length := rfl
          _ ≤ ((cleanText unesc text).data.take 319).length := h2
          _ ≤ 319 := h3
      refine ⟨?_, fun _ => ⟨rfl, ⟨pyRstrip (pyTake 319 (cleanText unesc text)), rfl⟩⟩⟩
      rw [String.length_append]
      have : ("…" : String).length = 1 := rfl
      omega

set_option maxRecDepth 8000 in
/-- C5 witness: a 400-character input is truncated to 320 characters ending
in the ellipsis. -/
theorem C5_truncation_bound_witness :
    (summarize id (⟨List.replicate 400 'a'⟩ : String) 320).length ≤ 320 ∧
      summarize id (⟨List.replicate 400 'a'⟩ : String) 320
        = pyRstrip (pyTake 319 (cleanText id (⟨List.replicate 400 'a'⟩ : String))) ++ "…" :=
  ⟨(C5_truncation_bound id ⟨List.replicate 400 'a'⟩ rfl).1,
   ((C5_truncation_bound id ⟨List.replicate 400 'a'⟩ rfl).2 (by decide)).1⟩

/-! ## Pipeline lemmas -/

theorem processEntry_hashes_mono (u : String → String) (kw : List (String → Bool))
    (s : String) (st : RunState) (e : RawEntry) :
    ∃ t, (processEntry u kw s st e).hashes = st.hashes ++ t := by
  unfold processEntry
  by_cases h1 : hash_item (rawTitle e) (rawLink e) ∈ st.hashes
  · exact ⟨[], by simp [h1]⟩
  · by_cases h2 : (!kw.isEmpty && !matches_keywords (rawTitle e) (rawSummary e) kw) = true
    · exact ⟨[], by simp [h1, h2]⟩
    · exact ⟨[hash_item (rawTitle e) (rawLink e)], by simp [h1, h2]⟩

theorem entries_hashes_mono (u : String → String) (kw : List (String → Bool))
    (s : String) : ∀ (es : List RawEntry) (st : RunState),
    ∃ t, (es.foldl (processEntry u kw s) st).hashes = st.hashes ++ t := by
  intro es
  induction es with
  | nil => exact fun st => ⟨[], by simp⟩
  | cons e es ih =>
    intro st
    obtain ⟨t₁, h₁⟩ := processEntry_hashes_mono u kw s st e
    obtain ⟨t₂, h₂⟩ := ih (processEntry u kw s st e)
    exact ⟨t₁ ++ t₂, by simp [List.foldl_cons, h₂, h₁]⟩

theorem runFeeds_hashes_mono (u : String → String) (kw : List (String → Bool)) :
    ∀ (feeds : List Feed) (st : RunState),
    ∃ t, (runFeeds u kw feeds st).hashes = st.hashes ++ t := by
  intro feeds
  induction feeds with
  | nil => exact fun st => ⟨[], by simp [runFeeds]⟩
  | cons f fs ih =>
    intro st
    obtain ⟨t₁, h₁⟩ := entries_hashes_mono u kw f.name f.entries st
    obtain ⟨t₂, h₂⟩ := ih (f.entries.foldl (processEntry u kw f.name) st)
    exact ⟨t₁ ++ t₂, by simp [runFeeds, List.foldl_cons] at h₂ ⊢; simp [h₂, h₁]⟩

theorem handledEntry_mono (kw : List (String → Bool)) (hs t : List String)
    (e : RawEntry) (h : handledEntry kw hs e) : handledEntry kw (hs ++ t) e := by
  cases h with
  | inl h => exact Or.inl (List.mem_append_left t h)
  | inr h => exact Or.inr h

theorem processEntry_handled_self (u : String → String) (kw : List (String → Bool))
    (s : String) (st : RunState) (e : RawEntry) :
    handledEntry kw (processEntry u kw s st e).hashes e := by
  unfold processEntry
  by_cases h1 : hash_item (rawTitle e) (rawLink e) ∈ st.hashes
  · rw [if_pos h1]
    exact Or.inl h1
  · rw [if_neg h1]
    by_cases h2 : (!kw.isEmpty && !matches_keywords (rawTitle e) (rawSummary e) kw) = true
    · rw [if_pos h2]
      simp only [Bool.and_eq_true, Bool.not_eq_true'] at h2
      exact Or.inr ⟨(isEmpty_false_iff kw).mp h2.1, h2.2⟩
    · rw [if_neg h2]
      exact Or.inl (by simp)

theorem processEntry_handled_id (u : String → String) (kw : List (String → Bool))
    (s : String) (st : RunState) (e : RawEntry)
    (h : handledEntry kw st.hashes e) : processEntry u kw s st e = st := by
  unfold processEntry
  by_cases h1 : hash_item (rawTitle e) (rawLink e) ∈ st.hashes
  · rw [if_pos h1]
  · rw [if_neg h1]
    cases h with
    | inl h => exact absurd h h1
    | inr h =>
      have hcond : (!kw.isEmpty && !matches_keywords (rawTitle e) (rawSummary e) kw) = true := by
        simp only [Bool.and_eq_true, Bool.not_eq_true']
        exact ⟨(isEmpty_false_iff kw).mpr h.1, h.2⟩
      rw [if_pos hcond]

theorem entries_handled (u : String → String) (kw : List (String → Bool)) (s : String) :
    ∀ (es : List RawEntry) (st : RunState) (e : RawEntry), e ∈ es →
    handledEntry kw (es.foldl (processEntry u kw s) st).hashes e := by
  intro es
  induction es with
  | nil => intro st e h; exact absurd h (List.not_mem_nil e)
  | cons e' es ih =>
    intro st e h
    rw [List.foldl_cons]
    rcases List.mem_cons.mp h with h | h
    · subst h
      obtain ⟨t, ht⟩ := entries_hashes_mono u kw s es (processEntry u kw s st e)
      rw [ht]
      exact handledEntry_mono kw _ t e (processEntry_handled_self u kw s st e)
    · exact ih _ e h

theorem runFeeds_handled (u : String → String) (kw : List (String → Bool)) :
    ∀ (feeds : List Feed) (st : RunState) (f : Feed), f ∈ feeds →
    ∀ e ∈ f.entries, handledEntry kw (runFeeds u kw feeds st).hashes e := by
  intro feeds
  induction feeds with
  | nil => intro st f h; exact absurd h (List.not_mem_nil f)
  | cons f' fs ih =>
    intro st f hf e he
    have hrw : runFeeds u kw (f' :: fs) st
        = runFeeds u kw fs (f'.entries.foldl (processEntry u kw f'.name) st) := rfl
    rw [hrw]
    rcases List.mem_cons.mp hf with h | h
    · subst h
      obtain ⟨t, ht⟩ :=
        runFeeds_hashes_mono u kw fs (f.entries.foldl (processEntry u kw f.name) st)
      rw [ht]
      exact handledEntry_mono kw _ t e (entries_handled u kw f.name f.entries st e he)
    · exact ih _ f h e he

theorem entries_handled_id (u : String → String) (kw : List (String → Bool)) (s : String) :
    ∀ (es : List RawEntry) (st : RunState),
    (∀ e ∈ es, handledEntry kw st.hashes e) →
    es.foldl (processEntry u kw s) st = st := by
  intro es
  induction es with
  | nil => intro st _; rfl
  | cons e es ih =>
    intro st h
    rw [List.foldl_cons, processEntry_handled_id u kw s st e (h e (by simp))]
    exact ih st (fun e' he' => h e' (List.mem_cons_of_mem e he'))

theorem runFeeds_handled_id (u : String → String) (kw : List (String → Bool)) :
    ∀ (feeds : List Feed) (st : RunState),
    (∀ f ∈ feeds, ∀ e ∈ f.entries, handledEntry kw st.hashes e) →
    runFeeds u kw feeds st = st := by
  intro feeds
  induction feeds with
  | nil => intro st _; rfl
  | cons f fs ih =>
    intro st h
    have hrw : runFeeds u kw (f :: fs) st
        = runFeeds u kw fs (f.entries.foldl (processEntry u kw f.name) st) := rfl
    rw [hrw, entries_handled_id u kw f.name f.entries st (h f (by simp))]
    exact ih st (fun f' hf' => h f' (List.mem_cons_of_mem f hf'))

theorem processEntry_frame (u : String → String) (kw : List (String → Bool))
    (s : String) (base : List String) (st : RunState) (e : RawEntry)
    (h : st.hashes = base ++ st.collected.map (fun it => hash_item it.title it.link)) :
    (processEntry u kw s st e).hashes
      = base ++ (processEntry u kw s st e).collected.map
          (fun it => hash_item it.title it.link) := by
  unfold processEntry
  by_cases h1 : hash_item (rawTitle e) (rawLink e) ∈ st.hashes
  · simpa [h1] using h
  · by_cases h2 : (!kw.isEmpty && !matches_keywords (rawTitle e) (rawSummary e) kw) = true
    · simpa [h1, h2] using h
    · rw [if_neg h1, if_neg h2]
      dsimp only
      rw [List.map_append, h, List.append_assoc]
      rfl

theorem entries_frame (u : String → String) (kw : List (String → Bool)) (s : String)
    (base : List String) :
    ∀ (es : List RawEntry) (st : RunState),
    st.hashes = base ++ st.collected.map (fun it => hash_item it.title it.link) →
    (es.foldl (processEntry u kw s) st).hashes
      = base ++ (es.foldl (processEntry u kw s) st).collected.map
          (fun it => hash_item it.title it.link) := by
  intro es
  induction es with
  | nil => intro st h; exact h
  | cons e es ih =>
    intro st h
    rw [List.foldl_cons]
    exact ih _ (processEntry_frame u kw s base st e h)

theorem runFeeds_frame (u : String → String) (kw : List (String → Bool))
    (base : List String) :
    ∀ (feeds : List Feed) (st : RunState),
    st.hashes = base ++ st.collected.map (fun it => hash_item it.title it.link) →
    (runFeeds u kw feeds st).hashes
      = base ++ (runFeeds u kw feeds st).collected.map
          (fun it => hash_item it.title it.link) := by
  intro feeds
  induction feeds with
  | nil => intro st h; exact h
  | cons f fs ih =>
    intro st h
    have hrw : runFeeds u kw (f :: fs) st
        = runFeeds u kw fs (f.entries.foldl (processEntry u kw f.name) st) := rfl
    rw [hrw]
    exact ih _ (entries_frame u kw f.name base f.entries st h)

/-! ## C9 — implicit ledger frame -/

/-- C9: for every run with a positive capacity, the pre-compaction ledger is
exactly the starting ledger followed by the fingerprints of the collected
items in collection order (nothing already present is removed or
reordered), and the persisted ledger is the suffix of that sequence keeping
the most recent `max_len` entries, with the capacity itself unchanged. -/
theorem C9_ledger_frame (u : String → String) (kw : List (String → Bool))
    (feeds : List Feed) (L : Ledger) (hpos : 0 < L.maxLen) :
    (runFeeds u kw feeds ⟨[], L.hashes⟩).hashes
      = L.hashes ++ (runFeeds u kw feeds ⟨[], L.hashes⟩).collected.map
          (fun it => hash_item it.title it.link)
    ∧ (mainRun u kw feeds L).1 = (runFeeds u kw feeds ⟨[], L.hashes⟩).collected
    ∧ (mainRun u kw feeds L).2.hashes
        = (runFeeds u kw feeds ⟨[], L.hashes⟩).hashes.drop
            ((runFeeds u kw feeds ⟨[], L.hashes⟩).hashes.length - L.maxLen)
    ∧ (mainRun u kw feeds L).2.maxLen = L.maxLen := by
  refine ⟨runFeeds_frame u kw L.hashes feeds ⟨[], L.hashes⟩ (by simp), rfl, ?_, rfl⟩
  exact (compact_spec L.maxLen _ hpos).2

/-- C9 witness: the frame property at a concrete run collecting two items. -/
theorem C9_ledger_frame_witness :
    (runFeeds id [] feedAB ⟨[], (⟨[], 10⟩ : Ledger).hashes⟩).hashes
      = (⟨[], 10⟩ : Ledger).hashes
        ++ (runFeeds id [] feedAB ⟨[], (⟨[], 10⟩ : Ledger).hashes⟩).collected.map
            (fun it => hash_item it.title it.link)
    ∧ (mainRun id [] feedAB ⟨[], 10⟩).1
        = (runFeeds id [] feedAB ⟨[], (⟨[], 10⟩ : Ledger).hashes⟩).collected
    ∧ (mainRun id [] feedAB ⟨[], 10⟩).2.hashes
        = (runFeeds id [] feedAB ⟨[], (⟨[], 10⟩ : Ledger).hashes⟩).hashes.drop
            ((runFeeds id [] feedAB ⟨[], (⟨[], 10⟩ : Ledger).hashes⟩).hashes.length - 10)
    ∧ (mainRun id [] feedAB ⟨[], 10⟩).2.maxLen = 10 :=
  C9_ledger_frame id [] feedAB ⟨[], 10⟩ (by decide)

/-! ## C1 — idempotence of dedup -/

set_option maxRecDepth 8000 in
/-- C1 counterexample: with starting ledger capacity 1, an empty pattern
list and one source returning two distinct entries, the first run collects
both items but compaction evicts the first fingerprint, so the second run
over the same feed contents with the persisted ledger re-collects one item
— not zero. -/
theorem C1_second_run_nonzero :
    (mainRun id [] feedAB (mainRun id [] feedAB ledger1).2).1.length = 1 := by
  decide

/-- C1 (amended): if the first run's final pre-compaction ledger fits within
`max_len` (starting hashes plus newly collected fingerprints, so compaction
evicts nothing), then a second run over the same feed contents with the
persisted ledger collects zero items. -/
theorem C1_idempotent (u : String → String) (kw : List (String → Bool))
    (feeds : List Feed) (L : Ledger)
    (hfit : (runFeeds u kw feeds ⟨[], L.hashes⟩).hashes.length ≤ L.maxLen) :
    (mainRun u kw feeds (mainRun u kw feeds L).2).1 = [] := by
  have hL1 : (mainRun u kw feeds L).2.hashes
      = (runFeeds u kw feeds ⟨[], L.hashes⟩).hashes := by
    show compactHashes L.maxLen (runFeeds u kw feeds ⟨[], L.hashes⟩).hashes = _
    unfold compactHashes
    rw [if_neg (by omega)]
  have hall : ∀ f ∈ feeds, ∀ e ∈ f.entries,
      handledEntry kw (mainRun u kw feeds L).2.hashes e := by
    intro f hf e he
    rw [hL1]
    exact runFeeds_handled u kw feeds ⟨[], L.hashes⟩ f hf e he
  show (runFeeds u kw feeds ⟨[], (mainRun u kw feeds L).2.hashes⟩).collected = []
  rw [runFeeds_handled_id u kw feeds ⟨[], (mainRun u kw feeds L).2.hashes⟩
    (fun f hf e he => hall f hf e he)]

set_option maxRecDepth 8000 in
/-- C1 witness: with capacity 10 nothing is evicted, and the second run over
the same two-entry feed collects zero items. -/
theorem C1_idempotent_witness :
    (runFeeds id [] feedAB ⟨[], (⟨[], 10⟩ : Ledger).hashes⟩).hashes.length
        ≤ (⟨[], 10⟩ : Ledger).maxLen
    ∧ (mainRun id [] feedAB (mainRun id [] feedAB ⟨[], 10⟩).2).1 = [] :=
  ⟨by decide, C1_idempotent id [] feedAB ⟨[], 10⟩ (by decide)⟩

/-! ## Sorting and grouping lemmas -/

theorem pyStrLeb_total : ∀ xs ys : List Char,
    pyStrLeb xs ys = true ∨ pyStrLeb ys xs = true := by
  intro xs
  induction xs with
  | nil => intro ys; left; rfl
  | cons x xs ih =>
    intro ys
    cases ys with
    | nil => right; rfl
    | cons y ys =>
      by_cases h1 : x.toNat < y.toNat
      · left; simp [pyStrLeb, h1]
      · by_cases h2 : x.toNat = y.toNat
        · have h3 : ¬ y.toNat < x.toNat := by omega
          rcases ih ys with h | h
          · left; simp [pyStrLeb, h1, h2, h]
          · right; simp [pyStrLeb, h3, h2.symm, h]
        · have h3 : y.toNat < x.toNat := by omega
          right; simp [pyStrLeb, h3]

theorem pyStrLeb_trans : ∀ xs ys zs : List Char,
    pyStrLeb xs ys = true → pyStrLeb ys zs = true → pyStrLeb xs zs = true := by
  intro xs
  induction xs with
  | nil => intro ys zs _ _; rfl
  | cons x xs ih =>
    intro ys zs h1 h2
    cases ys with
    | nil => simp [pyStrLeb] at h1
    | cons y ys =>
      cases zs with
      | nil => simp [pyStrLeb] at h2
      | cons z zs =>
        have hxy : x.toNat < y.toNat ∨ (x.toNat = y.toNat ∧ pyStrLeb xs ys = true) := by
          by_cases a : x.toNat < y.toNat
          · exact Or.inl a
          · by_cases b : x.toNat = y.toNat
            · simp only [pyStrLeb, if_neg a, if_pos b] at h1
              exact Or.inr ⟨b, h1⟩
            · simp [pyStrLeb, a, b] at h1
        have hyz : y.toNat < z.toNat ∨ (y.toNat = z.toNat ∧ pyStrLeb ys zs = true) := by
          by_cases a : y.toNat < z.toNat
          · exact Or.inl a
          · by_cases b : y.toNat = z.toNat
            · simp only [pyStrLeb, if_neg a, if_pos b] at h2
              exact Or.inr ⟨b, h2⟩
            · simp [pyStrLeb, a, b] at h2
        rcases hxy with hxy | ⟨hxy, hrec1⟩
        · rcases hyz with hyz | ⟨hyz, _⟩
          · simp [pyStrLeb, show x.toNat < z.toNat by omega]
          · simp [pyStrLeb, show x.toNat < z.toNat by omega]
        · rcases hyz with hyz | ⟨hyz, hrec2⟩
          · simp [pyStrLeb, show x.toNat < z.toNat by omega]
          · simp [pyStrLeb, show ¬ x.toNat < z.toNat by omega,
              show x.toNat = z.toNat by omega]
            exact ih ys zs hrec1 hrec2

theorem orderedInsertKey_perm (g : String × List Item) :
    ∀ l, (orderedInsertKey g l).Perm (g :: l) := by
  intro l
  induction l with
  | nil => exact List.Perm.refl _
  | cons h t ih =>
    unfold orderedInsertKey
    by_cases hc : pyStrLeb g.1.data h.1.data = true
    · rw [if_pos hc]
    · rw [if_neg hc]
      exact (ih.cons h).trans (List.Perm.swap g h t)

theorem sortByKey_perm : ∀ l, (sortByKey l).Perm l := by
  intro l
  induction l with
  | nil => exact List.Perm.refl _
  | cons g t ih =>
    exact (orderedInsertKey_perm g (sortByKey t)).trans (ih.cons g)

theorem orderedInsertKey_pairwise (g : String × List Item) (l : List (String × List Item))
    (hl : l.Pairwise keyLe) : (orderedInsertKey g l).Pairwise keyLe := by
  induction l with
  | nil => exact List.pairwise_singleton keyLe g
  | cons h t ih =>
    rw [List.pairwise_cons] at hl
    unfold orderedInsertKey
    by_cases hc : pyStrLeb g.1.data h.1.data = true
    · rw [if_pos hc]
      rw [List.pairwise_cons]
      refine ⟨?_, List.pairwise_cons.mpr hl⟩
      intro b hb
      rcases List.mem_cons.mp hb with rfl | hb
      · exact hc
      · exact pyStrLeb_trans g.1.data h.1.data b.1.data hc (hl.1 b hb)
    · rw [if_neg hc]
      rw [List.pairwise_cons]
      constructor
      · intro b hb
        rcases List.mem_cons.mp ((orderedInsertKey_perm g t).mem_iff.mp hb) with rfl | hb'
        · rcases pyStrLeb_total b.1.data h.1.data with h' | h'
          · exact absurd h' hc
          · exact h'
        · exact hl.1 b hb'
      · exact ih hl.2

theorem sortByKey_pairwise : ∀ l, (sortByKey l).Pairwise keyLe := by
  intro l
  induction l with
  | nil => exact List.Pairwise.nil
  | cons g t ih => exact orderedInsertKey_pairwise g (sortByKey t) ih

theorem groupOf_addItem (gs : List (String × List Item)) (it : Item) (s : String) :
    groupOf s (addItem gs it)
      = if it.source = s then groupOf s gs ++ [it] else groupOf s gs := by
  induction gs with
  | nil =>
    by_cases h : it.source = s
    · simp [addItem, groupOf, h]
    · simp [addItem, groupOf, h]
  | cons g rest ih =>
    obtain ⟨gk, gv⟩ := g
    by_cases h1 : gk = it.source
    · have ha : addItem ((gk, gv) :: rest) it = (gk, gv ++ [it]) :: rest := by
        simp [addItem, h1]
      rw [ha]
      by_cases h2 : gk = s
      · have h4 : it.source = s := h1.symm.trans h2
        rw [if_pos h4]
        simp [groupOf, h2]
      · have h4 : ¬ (it.source = s) := fun he => h2 (h1.trans he)
        rw [if_neg h4]
        simp [groupOf, h2]
    · have ha : addItem ((gk, gv) :: rest) it = (gk, gv) :: addItem rest it := by
        simp [addItem, h1]
      rw [ha]
      by_cases h2 : gk = s
      · have h4 : ¬ (it.source = s) := fun he => h1 (h2.trans he.symm)
        rw [if_neg h4]
        simp [groupOf, h2]
      · have hg : groupOf s ((gk, gv) :: addItem rest it) = groupOf s (addItem rest it) := by
          simp [groupOf, h2]
        have hg2 : groupOf s ((gk, gv) :: rest) = groupOf s rest := by
          simp [groupOf, h2]
        rw [hg, ih, hg2]

theorem groupOf_foldl (s : String) : ∀ (items : List Item) (gs : List (String × List Item)),
    groupOf s (items.foldl addItem gs)
      = groupOf s gs ++ items.filter (fun it => it.source == s) := by
  intro items
  induction items with
  | nil => intro gs; simp
  | cons it items ih =>
    intro gs
    rw [List.foldl_cons, ih, groupOf_addItem]
    by_cases h : it.source = s
    · rw [if_pos h]
      simp [List.filter_cons, h]
    · rw [if_neg h]
      simp [List.filter_cons, h]

theorem keys_addItem (gs : List (String × List Item)) (it : Item) :
    (addItem gs it).map Prod.fst
      = if it.source ∈ gs.map Prod.fst then gs.map Prod.fst
        else gs.map Prod.fst ++ [it.source] := by
  induction gs with
  | nil => simp [addItem]
  | cons g rest ih =>
    obtain ⟨gk, gv⟩ := g
    by_cases h1 : gk = it.source
    · have ha : addItem ((gk, gv) :: rest) it = (gk, gv ++ [it]) :: rest := by
        simp [addItem, h1]
      rw [ha, if_pos (by simp [h1.symm])]
      simp
    · have ha : addItem ((gk, gv) :: rest) it = (gk, gv) :: addItem rest it := by
        simp [addItem, h1]
      rw [ha]
      by_cases h2 : it.source ∈ rest.map Prod.fst
      · rw [if_pos (by simp [h2])]
        simp only [List.map_cons, ih, if_pos h2]
      · have h3 : ¬ (it.source ∈ ((gk, gv) :: rest).map Prod.fst) := by
          simp only [List.map_cons, List.mem_cons]
          rintro (h | h)
          · exact h1 h.symm
          · exact h2 h
        rw [if_neg h3]
        simp only [List.map_cons, ih, if_neg h2, List.cons_append]

theorem keys_nodup_addItem (gs : List (String × List Item)) (it : Item)
    (h : (gs.map Prod.fst).Nodup) : ((addItem gs it).map Prod.fst).Nodup := by
  rw [keys_addItem]
  by_cases hm : it.source ∈ gs.map Prod.fst
  · rw [if_pos hm]; exact h
  · rw [if_neg hm]
    simp [List.nodup_append, h, hm]

theorem keys_mem_addItem (gs : List (String × List Item)) (it : Item) (s : String) :
    s ∈ (addItem gs it).map Prod.fst ↔ s ∈ gs.map Prod.fst ∨ s = it.source := by
  rw [keys_addItem]
  by_cases hm : it.source ∈ gs.map Prod.fst
  · rw [if_pos hm]
    constructor
    · exact Or.inl
    · rintro (h | rfl)
      · exact h
      · exact hm
  · rw [if_neg hm]
    simp [List.mem_append]

theorem keys_nodup_foldl : ∀ (items : List Item) (gs : List (String × List Item)),
    (gs.map Prod.fst).Nodup → ((items.foldl addItem gs).map Prod.fst).Nodup := by
  intro items
  induction items with
  | nil => intro gs h; exact h
  | cons it items ih =>
    intro gs h
    rw [List.foldl_cons]
    exact ih _ (keys_nodup_addItem gs it h)

theorem keys_mem_foldl (s : String) : ∀ (items : List Item) (gs : List (String × List Item)),
    s ∈ (items.foldl addItem gs).map Prod.fst
      ↔ s ∈ gs.map Prod.fst ∨ s ∈ items.map Item.source := by
  intro items
  induction items with
  | nil => intro gs; simp
  | cons it items ih =>
    intro gs
    rw [List.foldl_cons, ih, keys_mem_addItem]
    simp only [List.map_cons, List.mem_cons]
    tauto

theorem groupOf_eq_of_mem : ∀ (gs : List (String × List Item)) (g : String × List Item),
    (gs.map Prod.fst).Nodup → g ∈ gs → groupOf g.1 gs = g.2 := by
  intro gs
  induction gs with
  | nil => intro g _ h; exact absurd h (List.not_mem_nil g)
  | cons h t ih =>
    intro g hnd hg
    rw [List.map_cons, List.nodup_cons] at hnd
    rcases List.mem_cons.mp hg with rfl | hg
    · simp [groupOf]
    · have hne : h.1 ≠ g.1 := fun he => hnd.1 (he ▸ List.mem_map_of_mem Prod.fst hg)
      have hstep : groupOf g.1 (h :: t) = groupOf g.1 t := by
        simp [groupOf, hne]
      rw [hstep]
      exact ih g hnd.2 hg

theorem lensum_addItem (gs : List (String × List Item)) (it : Item) :
    ((addItem gs it).map (fun g => g.2.length)).sum
      = ((gs.map (fun g => g.2.length)).sum) + 1 := by
  induction gs with
  | nil => simp [addItem]
  | cons g rest ih =>
    obtain ⟨gk, gv⟩ := g
    by_cases h1 : gk = it.source
    · have ha : addItem ((gk, gv) :: rest) it = (gk, gv ++ [it]) :: rest := by
        simp [addItem, h1]
      rw [ha]
      simp
      omega
    · have ha : addItem ((gk, gv) :: rest) it = (gk, gv) :: addItem rest it := by
        simp [addItem, h1]
      rw [ha]
      simp [ih]
      omega

theorem lensum_foldl : ∀ (items : List Item) (gs : List (String × List Item)),
    ((items.foldl addItem gs).map (fun g => g.2.length)).sum
      = ((gs.map (fun g => g.2.length)).sum) + items.length := by
  intro items
  induction items with
  | nil => intro gs; simp
  | cons it items ih =>
    intro gs
    rw [List.foldl_cons, ih, lensum_addItem]
    simp only [List.length_cons]
    omega

theorem bySource_length_eq (items : List Item) :
    (bySource items).length = distinctSources items := by
  have hnd : ((bySource items).map Prod.fst).Nodup :=
    keys_nodup_foldl items [] (by simp)
  have hcard := List.toFinset_card_of_nodup hnd
  have hset : ((bySource items).map Prod.fst).toFinset = (items.map Item.source).toFinset := by
    ext s
    simp only [List.mem_toFinset]
    have := keys_mem_foldl s items []
    simp only [List.map_nil, List.not_mem_nil, false_or] at this
    exact this
  unfold distinctSources
  rw [← hset, hcard, List.length_map]

/-! ## C6 — render determinism and ordering -/

/-- C6: `render_digest` is a pure function, so its output is identical on
every invocation of the same date label and item list; the per-source
blocks of the non-empty document (both the breakdown and the detail
sections are generated from `sortedBySource`) carry keys in strictly
ascending lexicographic (code-point) order, and the group rendered for a
source is exactly the collected items with that source, in collection
order. -/
theorem C6_render_deterministic_ordered (dateStr : String) (items : List Item) :
    render_digest dateStr items = render_digest dateStr items
    ∧ ((sortedBySource items).map Prod.fst).Pairwise
        (fun s t => pyStrLeb s.data t.data = true ∧ s ≠ t)
    ∧ ∀ g ∈ sortedBySource items, g.2 = items.filter (fun it => it.source == g.1) := by
  refine ⟨rfl, ?_, ?_⟩
  · have hsorted : (sortedBySource items).Pairwise keyLe := sortByKey_pairwise _
    have hperm : (sortedBySource items).Perm (bySource items) := sortByKey_perm _
    have hnd : ((bySource items).map Prod.fst).Nodup :=
      keys_nodup_foldl items [] (by simp)
    have hnd' : ((sortedBySource items).map Prod.fst).Nodup :=
      ((hperm.map Prod.fst).nodup_iff).mpr hnd
    have hle : ((sortedBySource items).map Prod.fst).Pairwise
        (fun s t => pyStrLeb s.data t.data = true) :=
      List.pairwise_map.mpr hsorted
    exact hle.and hnd'
  · intro g hg
    have hnd : ((bySource items).map Prod.fst).Nodup :=
      keys_nodup_foldl items [] (by simp)
    have hmem : g ∈ bySource items := (sortByKey_perm (bySource items)).mem_iff.mp hg
    have h1 := groupOf_eq_of_mem (bySource items) g hnd hmem
    have h2 := groupOf_foldl g.1 items []
    rw [← h1]
    simpa using h2

/-- C6 witness: on the sample items, the source `"a-src"` sorts ahead of
`"b-src"` and its detail group is exactly the one matching collected item. -/
theorem C6_render_deterministic_ordered_witness :
    (("a-src", [(⟨"a-src", "", "", "S2", ""⟩ : Item)]) : String × List Item)
        ∈ sortedBySource sampleItems
    ∧ ([(⟨"a-src", "", "", "S2", ""⟩ : Item)] : List Item)
        = sampleItems.filter (fun it => it.source == "a-src") :=
  ⟨by decide,
   (C6_render_deterministic_ordered "d" sampleItems).2.2
     ("a-src", [(⟨"a-src", "", "", "S2", ""⟩ : Item)]) (by decide)⟩

/-! ## C8 — count lines -/

/-- C8: for a non-empty item list the rendered document is the joined,
stripped `lines` list; the second line is the total-count line
`**N items from M sources**` with `N` the number of collected items and `M`
the number of distinct source names; and for every source group a breakdown
line occurs among the lines, reading `item` exactly when the count is 1 and
`items` otherwise. -/
theorem C8_count_lines (dateStr : String) (items : List Item) (hne : items ≠ []) :
    render_digest dateStr items
      = pyStrip (String.intercalate "\n" (linesOf dateStr items)) ++ "\n"
    ∧ (linesOf dateStr items)[1]?
        = some ("**" ++ toString items.length ++ " items from "
            ++ toString (distinctSources items) ++ " sources**\n")
    ∧ ∀ g ∈ sortedBySource items,
        countLine g.1 g.2.length ∈ linesOf dateStr items
        ∧ ((g.2.length = 1 ∧ countLine g.1 g.2.length
              = "- " ++ g.1 ++ ": " ++ toString g.2.length ++ " item")
          ∨ (g.2.length ≠ 1 ∧ countLine g.1 g.2.length
              = "- " ++ g.1 ++ ": " ++ toString g.2.length ++ " items")) := by
  refine ⟨?_, ?_, ?_⟩
  · unfold render_digest
    rw [if_neg (by simp [List.isEmpty_iff, hne])]
  · have h1 : (linesOf dateStr items)[1]?
        = some ("**" ++ toString items.length ++ " items from "
            ++ toString (bySource items).length ++ " sources**\n") := rfl
    rw [h1, bySource_length_eq]
  · intro g hg
    constructor
    · unfold linesOf
      have hmem :=
        List.mem_map_of_mem (fun g : String × List Item => countLine g.1 g.2.length) hg
      exact List.mem_append_left _ (List.mem_append_left _
        (List.mem_append_right _ hmem))
    · by_cases h : g.2.length = 1
      · refine Or.inl ⟨h, ?_⟩
        unfold countLine
        rw [h, if_neg (by decide)]
        exact string_append_empty _
      · refine Or.inr ⟨h, ?_⟩
        unfold countLine
        have hb : (g.2.length != 1) = true := by
          simpa using h
        rw [if_pos hb, string_append_assoc]
        have hs : (" item" : String) ++ "s" = " items" := rfl
        rw [hs]

/-- C8 witness: the sample items render a `**3 items from 2 sources**`
line, and the singular breakdown line for the one-item source occurs among
the lines. -/
theorem C8_count_lines_witness :
    (linesOf "d" sampleItems)[1]? = some "**3 items from 2 sources**\n"
    ∧ countLine "a-src" 1 ∈ linesOf "d" sampleItems :=
  ⟨by rw [(C8_count_lines "d" sampleItems (by simp [sampleItems])).2.1]; rfl,
   ((C8_count_lines "d" sampleItems (by simp [sampleItems])).2.2
     ("a-src", [(⟨"a-src", "", "", "S2", ""⟩ : Item)]) (by decide)).1⟩

/-! ## C10 — renderer self-consistency -/

theorem sum_map_add_one {α : Type} (f : α → Nat) :
    ∀ l : List α, (l.map (fun a => f a + 1)).sum = (l.map f).sum + l.length := by
  intro l
  induction l with
  | nil => simp
  | cons a l ih =>
    simp [ih]
    omega

/-- C10: for a non-empty item list, the per-source counts sum to the stated
total `N`; the number of per-source groups (which is both the number of
breakdown lines and the number of detail sections, one of each per group)
equals the stated `M` of distinct sources; and the total number of lines is
exactly `4 + 2*M + N` — the three header lines and one blank line, one
breakdown line and one section header per source, and one line per item. -/
theorem C10_renderer_consistency (dateStr : String) (items : List Item)
    (_hne : items ≠ []) :
    ((sortedBySource items).map (fun g => g.2.length)).sum = items.length
    ∧ (sortedBySource items).length = distinctSources items
    ∧ (linesOf dateStr items).length
        = 4 + 2 * distinctSources items + items.length := by
  have hperm : (sortedBySource items).Perm (bySource items) := sortByKey_perm _
  have hsum : ((sortedBySource items).map (fun g => g.2.length)).sum = items.length := by
    have h1 := (hperm.map (fun g => g.2.length)).sum_eq
    have h2 := lensum_foldl items []
    simp only [List.map_nil, List.sum_nil, Nat.zero_add] at h2
    rw [h1]
    exact h2
  have hlen : (sortedBySource items).length = distinctSources items := by
    rw [hperm.length_eq, bySource_length_eq]
  refine ⟨hsum, hlen, ?_⟩
  unfold linesOf
  simp only [List.cons_append, List.nil_append, List.length_cons, List.length_nil,
    List.length_append, List.length_map, List.length_flatMap, Function.comp_def]
  have hmaplen : (List.map (fun g : String × List Item => g.2.length + 1)
      (sortedBySource items)).sum = items.length + (sortedBySource items).length := by
    rw [sum_map_add_one (fun g : String × List Item => g.2.length) (sortedBySource items),
      hsum]
  omega

/-- C10 witness: on the sample items the counts 1 and 2 sum to 3, there are
two groups for two distinct sources, and the document has 4 + 2*2 + 3 = 11
lines. -/
theorem C10_renderer_consistency_witness :
    ((sortedBySource sampleItems).map (fun g => g.2.length)).sum = sampleItems.length
    ∧ (sortedBySource sampleItems).length = distinctSources sampleItems
    ∧ (linesOf "d" sampleItems).length
        = 4 + 2 * distinctSources sampleItems + sampleItems.length :=
  C10_renderer_consistency "d" sampleItems (by simp [sampleItems])
